import Mathlib

/-!
Verification development for the doc-mcp document ingestion and retrieval
service. The TypeScript sources are shallowly embedded here: JavaScript
strings become `List Char`, JavaScript numbers on integer-valued code paths
become `Nat`/`Int`, floating-point similarity scores become `ℚ`, and the
remote chat/embedding endpoints become explicit oracle parameters. Each
service method keeps its source name.
-/

set_option linter.unusedVariables false

/-- Strings from the JavaScript side are modelled as lists of characters
(JavaScript indexes UTF-16 code units; all inputs considered here live in
the BMP, where code units and characters coincide). -/
abbrev Str := List Char

/-- Character class of the JavaScript regex `\s` (whitespace), which is also
the class trimmed by `String.prototype.trim`. -/
def isJsSpace (c : Char) : Bool :=
  c = ' ' || c = '\t' || c = '\n' || c = '\r' ||
  c.val = 11 || c.val = 12 || c.val = 0xa0 || c.val = 0x1680 ||
  (0x2000 ≤ c.val && c.val ≤ 0x200a) || c.val = 0x2028 || c.val = 0x2029 ||
  c.val = 0x202f || c.val = 0x205f || c.val = 0x3000 || c.val = 0xfeff

/-- JavaScript `String.prototype.trim`: strip leading and trailing `\s`. -/
def jsTrim (s : Str) : Str :=
  ((s.dropWhile isJsSpace).reverse.dropWhile isJsSpace).reverse

/-- Does `pat` occur in `text` starting exactly at index `i`? -/
def matchAt (text pat : Str) (i : Nat) : Bool :=
  (text.drop i).take pat.length == pat

/-- JavaScript `String.prototype.indexOf(pat, start)`: index of the first
occurrence of `pat` at or after `start`, `none` for the JavaScript `-1`.
An empty pattern is found at `min start length`, as in JavaScript. -/
def jsIndexOf (text pat : Str) (start : Nat) : Option Nat :=
  if pat = [] then some (min start text.length)
  else (List.range text.length).find? (fun i => start ≤ i && matchAt text pat i)

theorem jsIndexOf_some_lt {text pat : Str} {start i : Nat} (hpat : pat ≠ [])
    (h : jsIndexOf text pat start = some i) : i < text.length := by
  simp only [jsIndexOf, hpat, if_neg, if_false] at h
  have := List.mem_of_find?_eq_some h
  simpa using List.mem_range.mp (by simpa using this)

/-- JavaScript `String.prototype.split(sep)`: with a non-empty separator,
repeatedly cut at the first occurrence; an empty separator splits into
single characters. -/
def jsSplit (sep : Str) (text : Str) : List Str :=
  if hsep : sep = [] then text.map (fun c => [c])
  else
    match h : jsIndexOf text sep 0 with
    | none => [text]
    | some i => text.take i :: jsSplit sep (text.drop (i + sep.length))
termination_by text.length
decreasing_by
  have hlt : i < text.length := jsIndexOf_some_lt hsep h
  have hs : 0 < sep.length := List.length_pos.mpr hsep
  simp only [List.length_drop]
  omega

/-! ### Chunking service (`src/services/chunking.service.ts`) -/

/-- Configuration of one chunking strategy (`ChunkStrategyConfig`). -/
structure ChunkStrategyConfig where
  parentChunkSize : Nat
  childChunkSize : Nat
  overlapPercent : Nat
  name : Option Str := none
deriving Repr, DecidableEq

/-- The prioritized separator list `RECURSIVE_SEPARATORS`. -/
def RECURSIVE_SEPARATORS : List Str :=
  ["\n\n".data, "\n".data, "。".data, "！".data, "？".data, ".".data,
   "!".data, "?".data, ";".data, "；".data, ",".data, "，".data,
   " ".data, "".data]

/-- Loop body of `characterLevelSplit`, entered only when the step
`chunkSize - overlap` is positive (the guard in the source guarantees it,
which is what makes the loop terminate). -/
def charLoop (text : Str) (chunkSize step : Nat) (hstep : 0 < step)
    (hle : step ≤ chunkSize) (start : Nat) : List Str :=
  if h : start < text.length then
    let e := min (start + chunkSize) text.length
    let chunk := (text.drop start).take (e - start)
    let start1 := start + step
    let start2 := if e ≤ start1 ∧ start1 < text.length then e else start1
    chunk :: charLoop text chunkSize step hstep hle start2
  else []
termination_by text.length - start
decreasing_by
  simp only [Nat.min_def]
  split <;> split <;> omega

/-- `characterLevelSplit`: the character-level fallback splitter. When the
step `chunkSize - overlap` is non-positive the source logs a warning
(`console.warn`, mirrored by `characterLevelSplitWarns`) and returns the
whole text as a single chunk. -/
def characterLevelSplit (text : Str) (chunkSize overlap : Nat) : List Str :=
  if h : chunkSize ≤ overlap then [text]
  else charLoop text chunkSize (chunkSize - overlap) (by omega) (by omega) 0

/-- Condition under which `characterLevelSplit` emits its configuration
warning (`step <= 0` in the source, i.e. `overlap ≥ chunkSize`). -/
def characterLevelSplitWarns (chunkSize overlap : Nat) : Bool :=
  chunkSize ≤ overlap

/-- `getOverlapFromEnd`: take the last `overlap` characters of `text`,
preferably trimmed just after the first separator occurrence inside them.
`text.slice(-overlap)` is the whole text for `overlap = 0`, as in
JavaScript (`slice(-0)` is `slice(0)`). -/
def getOverlapFromEnd (text : Str) (overlap : Nat) (sep : Str) : Str :=
  if text.length ≤ overlap then text
  else
    let rawOverlap := if overlap = 0 then text else text.drop (text.length - overlap)
    match jsIndexOf rawOverlap sep 0 with
    | some si =>
        if si + 1 < rawOverlap.length then rawOverlap.drop (si + sep.length)
        else rawOverlap
    | none => rawOverlap

/-- `addOverlapToChunks`: prepend, to each non-first chunk, the tail of its
predecessor followed by the separator. -/
def addOverlapToChunks (chunks : List Str) (overlap : Nat) (sep : Str) : List Str :=
  match chunks with
  | [] => []
  | c0 :: rest =>
      c0 :: ((c0 :: rest).zip rest).map (fun p =>
        let ov := getOverlapFromEnd p.1 overlap sep
        if ov = [] then p.2 else ov ++ sep ++ p.2)

mutual

/-- `splitBySeparators`: walk the separator list, split by the current
separator, greedily merge adjacent fragments up to `chunkSize`, recurse on
oversized fragments with the next separator, and finally (for positive
overlap and at least two chunks) inject overlap. -/
def splitBySeparators (seps : List Str) (chunkSize overlap : Nat) (text : Str) :
    List Str :=
  match seps with
  | [] => characterLevelSplit text chunkSize overlap
  | sep :: rest =>
    if sep = [] then characterLevelSplit text chunkSize overlap
    else
      let splits := jsSplit sep text
      if splits.length = 1 then splitBySeparators rest chunkSize overlap text
      else
        let baseChunks := mergeLoop rest chunkSize overlap sep [] splits
        if baseChunks.length ≤ 1 ∨ overlap = 0 then baseChunks
        else addOverlapToChunks baseChunks overlap sep
termination_by (seps.length, 1, 0)

/-- The fragment-merging loop inside `splitBySeparators`, with `current`
the accumulator (`currentChunk` in the source) and `seps` the separators
that remain for recursion on oversized fragments. -/
def mergeLoop (seps : List Str) (chunkSize overlap : Nat) (sep : Str)
    (current : Str) (splits : List Str) : List Str :=
  match splits with
  | [] => if current = [] then [] else [current]
  | s :: ss =>
      let potential := if current = [] then s else current ++ sep ++ s
      if potential.length ≤ chunkSize then mergeLoop seps chunkSize overlap sep potential ss
      else
        (if current = [] then [] else [current]) ++
        (if chunkSize < s.length then
          splitBySeparators seps chunkSize overlap s ++ mergeLoop seps chunkSize overlap sep [] ss
        else mergeLoop seps chunkSize overlap sep s ss)
termination_by (seps.length + 1, 0, splits.length)

end

/-- One positioned span produced by `recursiveCharacterSplit`. -/
structure Span where
  content : Str
  startPosition : Nat
  endPosition : Nat
deriving Repr, DecidableEq

/-- One step of the best-effort position recovery in
`recursiveCharacterSplit`: locate `chunk` in `text` by substring search
from just after the previous span's start, falling back to a midpoint key
and finally to the search start itself. -/
def recoverStep (text : Str) (basePosition : Nat) (acc : List Span) (chunk : Str) :
    List Span :=
  let searchStart :=
    match acc.getLast? with
    | none => 0
    | some prev => prev.startPosition - basePosition + 1
  let chunkStartInText :=
    match jsIndexOf text chunk searchStart with
    | some p => p
    | none =>
        match acc.getLast? with
        | none => searchStart
        | some _ =>
            let midPoint := chunk.length / 2
            let searchKey := (chunk.drop midPoint).take 50
            match jsIndexOf text searchKey searchStart with
            | some keyPos => keyPos - midPoint
            | none => searchStart
  acc ++ [{ content := chunk,
            startPosition := basePosition + chunkStartInText,
            endPosition := basePosition + chunkStartInText + chunk.length }]

/-- `recursiveCharacterSplit`: split `text` (when it exceeds `chunkSize`)
via `splitBySeparators` and recover document positions for each chunk. -/
def recursiveCharacterSplit (seps : List Str) (text : Str)
    (chunkSize overlap basePosition : Nat) : List Span :=
  if text.length ≤ chunkSize then
    [{ content := text, startPosition := basePosition,
       endPosition := basePosition + text.length }]
  else
    (splitBySeparators seps chunkSize overlap text).foldl
      (recoverStep text basePosition) []

/-- A child chunk as returned by `chunkWithStrategy` (`ChildChunkResult`). -/
structure ChildChunkResult where
  content : Str
  chunkIndex : Nat
  startPosition : Nat
  endPosition : Nat
deriving Repr, DecidableEq

/-- A parent chunk with its children (`ParentChunkResult`). -/
structure ParentChunkResult where
  content : Str
  parentIndex : Nat
  startPosition : Nat
  endPosition : Nat
  children : List ChildChunkResult
deriving Repr, DecidableEq

/-- `chunkWithStrategy`: parent pass then child pass, with overlap counts
`⌊size · overlapPercent / 100⌋` (exact in `Nat` division, as the source's
float arithmetic is exact on these integer ranges). -/
def chunkWithStrategy (seps : List Str) (content : Str)
    (strategy : ChunkStrategyConfig) : List ParentChunkResult :=
  if content = [] then []
  else
    let parentOverlap := strategy.parentChunkSize * strategy.overlapPercent / 100
    let childOverlap := strategy.childChunkSize * strategy.overlapPercent / 100
    let parentChunks :=
      recursiveCharacterSplit seps content strategy.parentChunkSize parentOverlap 0
    parentChunks.enum.map (fun p =>
      { content := p.2.content
        parentIndex := p.1
        startPosition := p.2.startPosition
        endPosition := p.2.endPosition
        children :=
          (recursiveCharacterSplit seps p.2.content strategy.childChunkSize
              childOverlap p.2.startPosition).enum.map (fun c =>
            { content := c.2.content
              chunkIndex := c.1
              startPosition := c.2.startPosition
              endPosition := c.2.endPosition }) })

/-! ### Embedding service (`src/services/embedding.service.ts`) -/

/-- Embedding vectors; the source's floating-point components are modelled
as rationals. -/
abbrev Vec := List ℚ

/-- The constant `DEFAULT_EMBEDDING_BATCH_SIZE`. -/
def DEFAULT_EMBEDDING_BATCH_SIZE : Nat := 100

/-- The batching of `generateEmbeddings`: successive slices of at most 100
valid inputs per remote call. -/
def chunkBatches (l : List α) : List (List α) :=
  match l with
  | [] => []
  | x :: xs =>
      (x :: xs).take DEFAULT_EMBEDDING_BATCH_SIZE ::
        chunkBatches ((x :: xs).drop DEFAULT_EMBEDDING_BATCH_SIZE)
termination_by l.length
decreasing_by
  simp only [List.length_drop, List.length_cons, DEFAULT_EMBEDDING_BATCH_SIZE]
  omega

/-- `generateEmbeddings`, with the remote embedding endpoint abstracted as
`api`, which maps a batch of input texts to a list of
`(embedding, index)` response items (in an arbitrary order — the source
re-sorts them by `index`). Blank inputs are filtered out up front (keeping
their original index) and receive the `[]` placeholder in the result. -/
def generateEmbeddings (api : List Str → List (Vec × Nat)) (texts : List Str) :
    List Vec :=
  if texts.length = 0 then []
  else
    let validTexts :=
      (texts.enum.filter (fun p => !(jsTrim p.2).isEmpty)).map
        (fun p => (p.1, jsTrim p.2))
    if validTexts.isEmpty then texts.map (fun _ => [])
    else
      (chunkBatches validTexts).foldl
        (fun results batch =>
          let response := api (batch.map (fun it => it.2))
          let batchEmbeddings :=
            (response.mergeSort (fun a b => a.2 ≤ b.2)).map (fun d => d.1)
          (batch.zip batchEmbeddings).foldl
            (fun acc p => acc.set p.1.1 p.2) results)
        (List.replicate texts.length [])

/-- Context record accepted by `generateContextualEmbedding(s)`. -/
structure EmbedContext where
  title : Option Str := none
  parentSummary : Option Str := none
  documentType : Option Str := none
deriving Repr, DecidableEq

/-- `buildEnrichedText`: assemble `[标题] …`, `[类型] …`, `[摘要] …`,
`[内容] …` parts (absent or empty fields dropped, as they are falsy in the
source) joined by newlines. -/
def buildEnrichedText (content : Str) (ctx : EmbedContext) : Str :=
  let optPart (tag : Str) (o : Option Str) : List Str :=
    match o with
    | some t => if t = [] then [] else [tag ++ t]
    | none => []
  let parts :=
    optPart "[标题] ".data ctx.title ++
    optPart "[类型] ".data ctx.documentType ++
    optPart "[摘要] ".data ctx.parentSummary ++
    ["[内容] ".data ++ content]
  List.intercalate "\n".data parts

/-- `generateContextualEmbeddings`: embed the enriched form of each item. -/
def generateContextualEmbeddings (api : List Str → List (Vec × Nat))
    (items : List (Str × EmbedContext)) : List Vec :=
  generateEmbeddings api (items.map (fun it => buildEnrichedText it.1 it.2))

/-- Sum-of-squares accumulator of `cosineSimilarity` (`norm1`/`norm2`). -/
def sumSq (v : List ℝ) : ℝ := v.foldl (fun s x => s + x * x) 0

/-- Dot-product accumulator of `cosineSimilarity`. -/
def dotProd (v1 v2 : List ℝ) : ℝ := (v1.zip v2).foldl (fun s p => s + p.1 * p.2) 0

/-- Value computed by `cosineSimilarity` once the dimension check passed:
`dot / (√norm1 · √norm2)`, with `0` returned when the magnitude product is
zero. -/
noncomputable def cosineValue (vec1 vec2 : List ℝ) : ℝ :=
  let magnitude := Real.sqrt (sumSq vec1) * Real.sqrt (sumSq vec2)
  if magnitude = 0 then 0 else dotProd vec1 vec2 / magnitude

/-- `cosineSimilarity`: `none` models the `VECTOR_DIMENSION_MISMATCH`
exception on length mismatch; otherwise the computed similarity. -/
noncomputable def cosineSimilarity (vec1 vec2 : List ℝ) : Option ℝ :=
  if vec1.length = vec2.length then some (cosineValue vec1 vec2) else none

/-! ### Document service (`src/services/document.service.ts`) -/

/-- One retrieval result row (`SearchResultItem`); `similarity` is the
vector similarity reported by the store, as a rational. -/
structure SearchResultItem where
  document_id : Str
  document_title : Option Str := none
  project_name : Str
  document_type : Str
  parent_chunk_content : Str
  parent_chunk_summary : Option Str := none
  child_chunk_content : Str
  similarity : ℚ
deriving Repr, DecidableEq

/-- Score lookup of `llmRerank`: the first parsed entry whose `id` equals
the candidate index, defaulting to 5 (`scoreItem?.score ?? 5`). -/
def findScore (scores : List (Int × ℚ)) (idx : Nat) : ℚ :=
  match scores.find? (fun s => s.1 = (idx : Int)) with
  | some s => s.2
  | none => 5

/-- `llmRerank`, with the chat call and JSON score extraction abstracted
into `scoresOpt`: `none` is any transport or parse failure (the `catch`
branch returns the first `topK` original results), `some scores` the
successfully parsed `[{id, score}, …]` array. On success every candidate's
`similarity` is replaced by `0.3·similarity + 0.7·(score/10)` and the list
is re-sorted descending (JavaScript's stable sort) and truncated. -/
def llmRerank (scoresOpt : Option (List (Int × ℚ)))
    (results : List SearchResultItem) (topK : Nat) : List SearchResultItem :=
  match scoresOpt with
  | none => results.take topK
  | some scores =>
      let scoredResults := results.enum.map (fun p =>
        { p.2 with
          similarity := p.2.similarity * (3/10) + (findScore scores p.1 / 10) * (7/10) })
      (scoredResults.mergeSort (fun a b => b.similarity ≤ a.similarity)).take topK

/-- `rerankResults`: skip the LLM pass when the list already fits in
`topK`; otherwise rerank, degrading to a truncation on failure (both the
`catch` here and the one inside `llmRerank` produce that truncation). -/
def rerankResults (scoresOpt : Option (List (Int × ℚ)))
    (results : List SearchResultItem) (topK : Nat) : List SearchResultItem :=
  if results.length ≤ topK then results
  else llmRerank scoresOpt results topK

/-- The fields of `SearchDocumentResponse` that depend on the result list. -/
structure SearchResponseCore where
  total_results : Nat
  results : List SearchResultItem
deriving Repr, DecidableEq

/-- Post-retrieval portion of `searchDocuments`: apply reranking when
requested and at least one row was retrieved, then report the final list
and its length as `total_results`. -/
def searchDocumentsAssemble (useRerank : Bool)
    (scoresOpt : Option (List (Int × ℚ))) (retrieved : List SearchResultItem)
    (topK : Nat) : SearchResponseCore :=
  let final :=
    if useRerank && !retrieved.isEmpty then rerankResults scoresOpt retrieved topK
    else retrieved
  { total_results := final.length, results := final }

/-- Upload request fields used by validation and counting
(`UploadDocumentRequest` plus the controller's raw body fields). -/
structure UploadRequest where
  content : Str
  type : Str
  project_name : Str
  title : Option Str := none
deriving Repr, DecidableEq

/-- Validation failures of the `uploadDocument` controller (HTTP 400). -/
inductive UploadValidationError where
  | missingContent
  | missingType
  | missingProjectName
deriving Repr, DecidableEq

/-- Parameter validation of the `uploadDocument` controller: a missing or
empty (falsy) `content`, `type` or `project_name` is rejected with 400. -/
def validateUploadRequest (r : UploadRequest) : Option UploadValidationError :=
  if r.content = [] then some .missingContent
  else if r.type = [] then some .missingType
  else if r.project_name = [] then some .missingProjectName
  else none

/-- The counters of `UploadDocumentResponse`. -/
structure UploadCounts where
  parent_chunks_created : Nat
  child_chunks_created : Nat
  embeddings_created : Nat
deriving Repr, DecidableEq

/-- Counting core of `DocumentService.uploadDocument`: chunk with every
strategy, skip strategies with no parents, flatten children, embed them
contextually, and count parents, children and the non-empty embedding
vectors that get persisted. Database writes and summary generation are
abstracted (`summarize` is the summary oracle, `api` the embedding
endpoint oracle). -/
def uploadDocumentCounts (api : List Str → List (Vec × Nat))
    (summarize : Str → Str) (strategies : List ChunkStrategyConfig)
    (r : UploadRequest) : UploadCounts :=
  strategies.foldl (fun acc strategy =>
    let parentChunks := chunkWithStrategy RECURSIVE_SEPARATORS r.content strategy
    if parentChunks.isEmpty then acc
    else
      let parentSummaries := parentChunks.map (fun p => summarize p.content)
      let childItems :=
        (parentChunks.zip parentSummaries).foldl (fun l pp =>
          l ++ pp.1.children.map (fun c =>
            (c.content,
             ({ title := r.title, parentSummary := some pp.2,
                documentType := some r.type } : EmbedContext)))) []
      let allEmbeddings := generateContextualEmbeddings api childItems
      { parent_chunks_created := acc.parent_chunks_created + parentChunks.length
        child_chunks_created := acc.child_chunks_created + childItems.length
        embeddings_created := acc.embeddings_created +
          ((List.range childItems.length).filter
            (fun i => !(allEmbeddings.getD i []).isEmpty)).length })
    { parent_chunks_created := 0, child_chunks_created := 0,
      embeddings_created := 0 }

/-- The `uploadDocument` controller: validate, then run the service and
wrap its counters in a success response (`Except.ok` models the HTTP 201
`success: true` response, `Except.error` the 400 validation response). -/
def uploadDocument (api : List Str → List (Vec × Nat)) (summarize : Str → Str)
    (strategies : List ChunkStrategyConfig) (r : UploadRequest) :
    Except UploadValidationError UploadCounts :=
  match validateUploadRequest r with
  | some e => .error e
  | none => .ok (uploadDocumentCounts api summarize strategies r)

/-! ### Query service (`src/services/query.service.ts`) -/

/-- The three query strategies (`QueryStrategy`). -/
inductive QueryStrategy where
  | direct
  | expansion
  | hyde
deriving Repr, DecidableEq

/-- Result of query analysis (`QueryAnalysis`). -/
structure QueryAnalysis where
  strategy : QueryStrategy
  reason : Str
  confidence : ℚ
deriving Repr, DecidableEq

/-- ASCII upper-case letter, the regex class `[A-Z]`. -/
def isUpperAZ (c : Char) : Bool := 'A' ≤ c && c ≤ 'Z'

/-- ASCII lower-case letter, the regex class `[a-z]`. -/
def isLowerAZ (c : Char) : Bool := 'a' ≤ c && c ≤ 'z'

/-- The regex word class `\w`, i.e. `[A-Za-z0-9_]`. -/
def isWordChar (c : Char) : Bool :=
  isUpperAZ c || isLowerAZ c || ('0' ≤ c && c ≤ '9') || c = '_'

/-- Case-insensitive prefix test: does `q` start with `w` (with `w` given
in lower case), as one alternative of an `/^(...)/i` regex? -/
def startsWithWordCI (q : Str) (w : Str) : Bool :=
  (q.take w.length).map Char.toLower == w

/-- The question-word alternatives of `getDefaultStrategy`'s regex
`/^(如何|怎么|怎样|为什么|什么是|是什么|how|what|why|when|where)/i`. -/
def questionWords : List Str :=
  ["如何".data, "怎么".data, "怎样".data, "为什么".data, "什么是".data,
   "是什么".data, "how".data, "what".data, "why".data, "when".data,
   "where".data]

/-- Match of the regex alternative `[A-Z][a-z]+[A-Z]` anchored at the head
of the string: an upper-case letter, a non-empty lower-case run, then an
upper-case letter (since `[a-z]` and `[A-Z]` are disjoint, it suffices to
look past the maximal lower-case run). -/
def camelAt (l : Str) : Bool :=
  match l with
  | [] => false
  | c :: rest =>
      isUpperAZ c &&
      (let run := rest.takeWhile isLowerAZ
       !run.isEmpty &&
        match rest.drop run.length with
        | d :: _ => isUpperAZ d
        | [] => false)

/-- Unanchored test of `[A-Z][a-z]+[A-Z]` (CamelCase). -/
def hasCamel : Str → Bool
  | [] => false
  | c :: rest => camelAt (c :: rest) || hasCamel rest

/-- Unanchored test of `_[a-z]+` (snake_case): an underscore immediately
followed by a lower-case letter. -/
def hasSnake : Str → Bool
  | [] => false
  | c :: rest =>
      (c = '_' &&
        match rest with
        | d :: _ => isLowerAZ d
        | [] => false) || hasSnake rest

/-- Match of `\.[\w]+\(` anchored at the head: a dot, a non-empty word-char
run, then an opening parenthesis (word chars and `(` are disjoint, so the
maximal run decides). -/
def dottedCallAt (l : Str) : Bool :=
  match l with
  | [] => false
  | c :: rest =>
      c = '.' &&
      (let run := rest.takeWhile isWordChar
       !run.isEmpty &&
        match rest.drop run.length with
        | d :: _ => d = '('
        | [] => false)

/-- Unanchored test of `\.[\w]+\(` (a dotted call). -/
def hasDottedCall : Str → Bool
  | [] => false
  | c :: rest => dottedCallAt (c :: rest) || hasDottedCall rest

/-- The code-feature regex `/[A-Z][a-z]+[A-Z]|_[a-z]+|\.[\w]+\(|`+"`"+`/` of
`getDefaultStrategy` (backtick written by code point to keep it out of the
Lean source text). -/
def hasCodeFeature (q : Str) : Bool :=
  hasCamel q || hasSnake q || hasDottedCall q || q.any (fun c => c.val = 96)

/-- JavaScript `split(/\s+/)`: split on maximal whitespace runs; a leading
run yields a leading empty piece and a trailing run a trailing one. -/
def jsSplitWS (l : Str) : List Str :=
  let piece := l.takeWhile (fun c => !isJsSpace c)
  let rest := l.dropWhile (fun c => !isJsSpace c)
  match hrest : rest with
  | [] => [piece]
  | r :: rs => piece :: jsSplitWS (rs.dropWhile isJsSpace)
termination_by l.length
decreasing_by
  have h1 : (List.dropWhile (fun c => !isJsSpace c) l).length ≤ l.length :=
    (List.dropWhile_sublist _).length_le
  have h2 : (rs.dropWhile isJsSpace).length ≤ rs.length :=
    (List.dropWhile_sublist _).length_le
  have h3 : List.dropWhile (fun c => !isJsSpace c) l = r :: rs := hrest
  simp only [h3, List.length_cons] at h1
  omega

/-- `getDefaultStrategy`: the rule-based fallback classification used when
AI query analysis fails or returns malformed JSON. -/
def getDefaultStrategy (query : Str) : QueryAnalysis :=
  let trimmedQuery := jsTrim query
  if questionWords.any (startsWithWordCI trimmedQuery) then
    { strategy := .hyde, reason := "问句类型查询".data, confidence := 7/10 }
  else if trimmedQuery.length < 10 || (jsSplitWS trimmedQuery).length < 3 then
    { strategy := .expansion, reason := "短查询需要扩展".data, confidence := 6/10 }
  else if hasCodeFeature trimmedQuery then
    { strategy := .direct, reason := "包含代码/API特征".data, confidence := 8/10 }
  else
    { strategy := .expansion, reason := "默认策略".data, confidence := 5/10 }

/-! ### Summary service (`src/services/summary.service.ts`) -/

/-- `generateSummary`, with the chat endpoint's (successful) reply passed
in as `chatReply`; the second component counts how many times the chat
model was invoked, so that "returns without calling the model" is an
observable fact. A blank input short-circuits to the empty summary; a
blank reply falls back to the first 200 characters of the input with an
ellipsis appended when the input is longer than 200 characters. -/
def generateSummary (chatReply : Str) (content : Str) : Str × Nat :=
  if jsTrim content = [] then ([], 0)
  else if jsTrim chatReply = [] then
    (content.take 200 ++ (if 200 < content.length then "...".data else []), 1)
  else (chatReply, 1)

/-! ### Auxiliary specification-side definitions -/

/-- Interleave `gaps` and `chunks`, starting and ending with a gap:
`g₀ ++ c₁ ++ g₁ ++ … ++ cₙ ++ gₙ` (intended for
`gaps.length = chunks.length + 1`). -/
def joinInterleave : List Str → List Str → Str
  | [], _ => []
  | g :: _, [] => g
  | g :: gs, c :: cs => g ++ c ++ joinInterleave gs cs

/-- A string made only of separators drawn from `seps`. -/
def IsSepJoin (seps : List Str) (g : Str) : Prop :=
  ∃ parts : List Str, (∀ p ∈ parts, p ∈ seps) ∧ g = parts.flatten

/-- The chunks occur in `text` in order, pairwise disjoint, and the
material between (and around) them consists only of separator strings:
`text = g₀ ++ c₁ ++ g₁ ++ … ++ cₙ ++ gₙ` with every gap a concatenation of
separators from `seps`. -/
def ChunksChain (seps : List Str) (text : Str) (chunks : List Str) : Prop :=
  ∃ gaps : List Str, gaps.length = chunks.length + 1 ∧
    (∀ g ∈ gaps, IsSepJoin seps g) ∧ text = joinInterleave gaps chunks

/-- Number of whitespace-separated tokens (maximal runs of non-whitespace
characters) of a string — the specification-side reading of "whitespace
tokens" in the query-classification rules. -/
def tokenCount (l : Str) : Nat :=
  match h : l.dropWhile isJsSpace with
  | [] => 0
  | r :: rs => 1 + tokenCount ((r :: rs).dropWhile (fun c => !isJsSpace c))
termination_by l.length
decreasing_by
  have h0 : (l.dropWhile isJsSpace).length ≤ l.length :=
    (List.dropWhile_sublist _).length_le
  have h1 : 0 < (l.dropWhile isJsSpace).length := by rw [h]; simp
  have hr : ¬ isJsSpace ((l.dropWhile isJsSpace).get ⟨0, h1⟩) = true :=
    List.dropWhile_get_zero_not _ l h1
  have hget : (l.dropWhile isJsSpace).get ⟨0, h1⟩ = r := by simp [h]
  rw [hget] at hr
  have h2 : (r :: rs).dropWhile (fun c => !isJsSpace c) = rs.dropWhile (fun c => !isJsSpace c) := by
    simp [List.dropWhile_cons, hr]
  have h3 : (rs.dropWhile (fun c => !isJsSpace c)).length ≤ rs.length :=
    (List.dropWhile_sublist _).length_le
  have h4 : (l.dropWhile isJsSpace).length = rs.length + 1 := by rw [h]; rfl
  rw [h2]
  omega

/-- The question-word list exactly as claim C8 states it — it omits the
怎样 and 是什么 alternatives that the source regex contains. -/
def claimedQuestionWords : List Str :=
  ["如何".data, "怎么".data, "为什么".data, "什么是".data, "how".data,
   "what".data, "why".data, "when".data, "where".data]

/-- The rule-based fallback classification exactly as claim C8 words it
(its rules in order over the trimmed query, with its question-word list);
kept to compare against `getDefaultStrategy`. -/
def claimedFallbackStrategy (query : Str) : QueryStrategy :=
  let t := jsTrim query
  if claimedQuestionWords.any (startsWithWordCI t) then .hyde
  else if t.length < 10 || tokenCount t < 3 then .expansion
  else if hasCodeFeature t then .direct
  else .expansion

/-- A search-result row with the given similarity, for concrete instances. -/
def sampleItem (sim : ℚ) : SearchResultItem :=
  { document_id := "doc".data
    project_name := "proj".data
    document_type := "GENERAL_DOC".data
    parent_chunk_content := "parent".data
    child_chunk_content := "child".data
    similarity := sim }

/-! ## Theorems -/

/-- C7: whenever the configured overlap is at least the chunk size (so the
step `chunkSize - overlap` is non-positive), the character-level fallback
terminates immediately, returning the entire remaining text as a single
chunk, and raises the configuration warning instead of looping or
producing further chunks. -/
theorem characterLevelSplit_nonpositive_step (text : Str) (chunkSize overlap : Nat)
    (h : chunkSize ≤ overlap) :
    characterLevelSplit text chunkSize overlap = [text] ∧
    characterLevelSplitWarns chunkSize overlap = true := by
  refine ⟨?_, ?_⟩
  · rw [characterLevelSplit, dif_pos h]
  · simp [characterLevelSplitWarns, h]

/-- Witness for C7 at a concrete input. -/
theorem characterLevelSplit_nonpositive_step_witness :
    characterLevelSplit "abcdef".data 3 5 = ["abcdef".data] ∧
    characterLevelSplitWarns 3 5 = true :=
  characterLevelSplit_nonpositive_step "abcdef".data 3 5 (by decide)

/-- C6: a non-empty document no longer than the child chunk size (for a
strategy whose child size does not exceed its parent size, the documented
invariant on strategies) yields exactly one parent with exactly one child,
both spanning the whole text with positions `0` to its length. -/
theorem chunkWithStrategy_small_document (content : Str)
    (strategy : ChunkStrategyConfig) (hne : content ≠ [])
    (hlen : content.length ≤ strategy.childChunkSize)
    (hcp : strategy.childChunkSize ≤ strategy.parentChunkSize) :
    chunkWithStrategy RECURSIVE_SEPARATORS content strategy =
      [{ content := content, parentIndex := 0, startPosition := 0,
         endPosition := content.length,
         children := [{ content := content, chunkIndex := 0, startPosition := 0,
                        endPosition := content.length }] }] := by
  have hp : content.length ≤ strategy.parentChunkSize := le_trans hlen hcp
  rw [chunkWithStrategy]
  rw [if_neg hne]
  simp only [recursiveCharacterSplit, if_pos hp]
  simp [List.enum, List.enumFrom, hlen]

/-- Witness for C6 at a concrete input. -/
theorem chunkWithStrategy_small_document_witness :
    chunkWithStrategy RECURSIVE_SEPARATORS "hi".data
        { parentChunkSize := 2000, childChunkSize := 800, overlapPercent := 25,
          name := some "default".data } =
      [{ content := "hi".data, parentIndex := 0, startPosition := 0,
         endPosition := "hi".data.length,
         children := [{ content := "hi".data, chunkIndex := 0, startPosition := 0,
                        endPosition := "hi".data.length }] }] :=
  chunkWithStrategy_small_document "hi".data _ (by decide) (by decide) (by decide)

/-- C9: a blank (whitespace-only) input makes `generateSummary` return the
empty string with zero chat-model invocations; a non-blank input whose
model reply is empty falls back to the first 200 characters of the input,
with an ellipsis appended exactly when the input exceeds 200 characters. -/
theorem generateSummary_blank_and_fallback (content chatReply : Str) :
    (jsTrim content = [] → generateSummary chatReply content = ([], 0)) ∧
    (jsTrim content ≠ [] → chatReply = [] →
      generateSummary chatReply content =
        (content.take 200 ++ (if 200 < content.length then "...".data else []), 1)) := by
  constructor
  · intro h
    rw [generateSummary, if_pos h]
  · intro h hr
    subst hr
    rw [generateSummary, if_neg h, if_pos (by decide)]

/-- Witness for C9, exercising both branches at concrete inputs. -/
theorem generateSummary_blank_and_fallback_witness :
    generateSummary "reply".data "  \n ".data = ([], 0) ∧
    generateSummary [] "hello".data =
      ("hello".data.take 200 ++ (if 200 < "hello".data.length then "...".data else []), 1) :=
  ⟨(generateSummary_blank_and_fallback "  \n ".data "reply".data).1 (by decide),
   (generateSummary_blank_and_fallback "hello".data []).2 (by decide) rfl⟩

/-- C5: when the rerank chat call fails or its output cannot be parsed
(`scoresOpt = none`) and retrieval produced at least `topK` rows, the
assembled search response holds exactly the first `topK` retrieved rows in
their original vector-similarity order, and `total_results` equals
`topK`. -/
theorem searchDocuments_rerank_failure (retrieved : List SearchResultItem)
    (topK : Nat) (h : topK ≤ retrieved.length) :
    (searchDocumentsAssemble true none retrieved topK).results = retrieved.take topK ∧
    (searchDocumentsAssemble true none retrieved topK).total_results = topK := by
  have hres : (searchDocumentsAssemble true none retrieved topK).results
      = retrieved.take topK := by
    rw [searchDocumentsAssemble]
    cases retrieved with
    | nil =>
        simp only [List.length_nil, Nat.le_zero] at h
        subst h
        simp
    | cons a l =>
        simp only [List.isEmpty_cons, Bool.not_false, Bool.and_true, rerankResults]
        by_cases hle : (a :: l).length ≤ topK
        · have heq : topK = (a :: l).length := le_antisymm h hle
          subst heq
          simp [List.take_length]
        · simp only [if_true, if_neg hle]
          rfl
  refine ⟨hres, ?_⟩
  have : (searchDocumentsAssemble true none retrieved topK).total_results
      = (searchDocumentsAssemble true none retrieved topK).results.length := rfl
  rw [this, hres, List.length_take]
  omega

/-- Witness for C5 at a concrete input. -/
theorem searchDocuments_rerank_failure_witness :
    (searchDocumentsAssemble true none [sampleItem (1/2), sampleItem (3/4)] 1).results
      = [sampleItem (1/2), sampleItem (3/4)].take 1 ∧
    (searchDocumentsAssemble true none [sampleItem (1/2), sampleItem (3/4)] 1).total_results
      = 1 :=
  searchDocuments_rerank_failure [sampleItem (1/2), sampleItem (3/4)] 1 (by decide)

/-- C2 counterexample: an ingest request whose `content` is the empty
string is not answered with a success response — the controller's
falsiness check treats the empty string as missing content and rejects the
request with the 400 validation error. -/
theorem uploadDocument_empty_content_rejected :
    uploadDocument (fun _ => []) (fun _ => [])
        [{ parentChunkSize := 2000, childChunkSize := 800, overlapPercent := 25,
           name := some "default".data }]
        { content := [], type := "general_doc".data, project_name := "P".data } =
      .error .missingContent := rfl

/-- C2 amended: an empty-content ingest request is rejected at the HTTP
boundary with the `missing content` validation error rather than answered
with a success response; the underlying `DocumentService.uploadDocument`
counting pipeline, given empty content, does report zero parent chunks,
zero child chunks and zero embeddings for every strategy list and every
behaviour of the summary and embedding endpoints. -/
theorem uploadDocument_empty_content (api : List Str → List (Vec × Nat))
    (summarize : Str → Str) (strategies : List ChunkStrategyConfig)
    (r : UploadRequest) (h : r.content = []) :
    uploadDocument api summarize strategies r = .error .missingContent ∧
    uploadDocumentCounts api summarize strategies r =
      { parent_chunks_created := 0, child_chunks_created := 0,
        embeddings_created := 0 } := by
  constructor
  · rw [uploadDocument, validateUploadRequest, if_pos h]
  · have hchunk : ∀ s, chunkWithStrategy RECURSIVE_SEPARATORS r.content s = [] := by
      intro s
      rw [chunkWithStrategy, if_pos h]
    rw [uploadDocumentCounts]
    induction strategies with
    | nil => rfl
    | cons s ss ih =>
        rw [List.foldl_cons, hchunk s]
        simpa using ih

/-- Witness for C2 (amended) at a concrete input. -/
theorem uploadDocument_empty_content_witness :
    uploadDocument (fun _ => []) (fun _ => [])
        [{ parentChunkSize := 2000, childChunkSize := 800, overlapPercent := 25,
           name := some "default".data }]
        { content := [], type := "general_doc".data, project_name := "P".data } =
      .error .missingContent ∧
    uploadDocumentCounts (fun _ => []) (fun _ => [])
        [{ parentChunkSize := 2000, childChunkSize := 800, overlapPercent := 25,
           name := some "default".data }]
        { content := [], type := "general_doc".data, project_name := "P".data } =
      { parent_chunks_created := 0, child_chunks_created := 0,
        embeddings_created := 0 } :=
  uploadDocument_empty_content _ _ _ _ rfl

/-- C4: when rerank scoring succeeds on more candidates than `topK`, the
returned list is a selection of `topK` candidates whose `similarity`
fields have been replaced by `0.3·vector_similarity + 0.7·(score/10)`
(score defaulting to 5 for ids absent from the parsed array), it is sorted
descending by that combined score, and every candidate left out scores no
higher than any candidate returned (i.e. it is the top-`topK` of the
descending order). -/
theorem llmRerank_success (results : List SearchResultItem)
    (scores : List (Int × ℚ)) (topK : Nat) (h : topK < results.length) :
    ∃ rest : List SearchResultItem,
      (llmRerank (some scores) results topK ++ rest).Perm
        (results.enum.map (fun p =>
          { p.2 with similarity :=
              p.2.similarity * (3/10) + (findScore scores p.1 / 10) * (7/10) })) ∧
      (llmRerank (some scores) results topK).length = topK ∧
      (llmRerank (some scores) results topK).Pairwise
        (fun a b => b.similarity ≤ a.similarity) ∧
      ∀ a ∈ llmRerank (some scores) results topK, ∀ b ∈ rest,
        b.similarity ≤ a.similarity := by
  classical
  set scored := results.enum.map (fun p =>
    { p.2 with similarity :=
        p.2.similarity * (3/10) + (findScore scores p.1 / 10) * (7/10) }) with hscored
  set sorted := scored.mergeSort (fun a b => b.similarity ≤ a.similarity) with hsorted
  have hll : llmRerank (some scores) results topK = sorted.take topK := rfl
  have hperm : sorted.Perm scored := List.mergeSort_perm scored _
  have hlen : sorted.length = results.length := by
    rw [hperm.length_eq, hscored, List.length_map, List.enum_length]
  have hsortpair : sorted.Pairwise (fun a b => b.similarity ≤ a.similarity) := by
    have hs := @List.sorted_mergeSort SearchResultItem
      (fun a b : SearchResultItem => decide (b.similarity ≤ a.similarity))
      (fun a b c hab hbc => by
        simp only [decide_eq_true_eq] at *
        exact le_trans hbc hab)
      (fun a b => by
        simp only [Bool.or_eq_true, decide_eq_true_eq]
        exact le_total b.similarity a.similarity)
      scored
    exact hs.imp (fun hab => by simpa using hab)
  refine ⟨sorted.drop topK, ?_, ?_, ?_, ?_⟩
  · rw [hll, List.take_append_drop]
    exact hperm
  · rw [hll, List.length_take]
    omega
  · rw [hll]
    exact hsortpair.sublist (List.take_sublist topK sorted)
  · rw [hll]
    have hsp2 : (sorted.take topK ++ sorted.drop topK).Pairwise
        (fun a b => b.similarity ≤ a.similarity) := by
      rw [List.take_append_drop]
      exact hsortpair
    exact fun a ha b hb => (List.pairwise_append.mp hsp2).2.2 a ha b hb

/-- Witness for C4 at a concrete input. -/
theorem llmRerank_success_witness :
    ∃ rest : List SearchResultItem,
      (llmRerank (some [((0 : Int), (9 : ℚ))]) [sampleItem (1/2), sampleItem (3/4)] 1 ++ rest).Perm
        ([sampleItem (1/2), sampleItem (3/4)].enum.map (fun p =>
          { p.2 with similarity :=
              p.2.similarity * (3/10) + (findScore [((0 : Int), (9 : ℚ))] p.1 / 10) * (7/10) })) ∧
      (llmRerank (some [((0 : Int), (9 : ℚ))]) [sampleItem (1/2), sampleItem (3/4)] 1).length = 1 ∧
      (llmRerank (some [((0 : Int), (9 : ℚ))]) [sampleItem (1/2), sampleItem (3/4)] 1).Pairwise
        (fun a b => b.similarity ≤ a.similarity) ∧
      ∀ a ∈ llmRerank (some [((0 : Int), (9 : ℚ))]) [sampleItem (1/2), sampleItem (3/4)] 1,
        ∀ b ∈ rest, b.similarity ≤ a.similarity :=
  llmRerank_success [sampleItem (1/2), sampleItem (3/4)] [((0 : Int), (9 : ℚ))] 1 (by decide)

/-- Sorting an index-tagged response that is a permutation of the
canonical `(embedding of tᵢ, i)` list by index recovers exactly the
canonical list — the re-sorting step of `generateEmbeddings`. -/
theorem mergeSort_perm_enum_eq (embedOf : Str → Vec) (b : List Str)
    (resp : List (Vec × Nat))
    (h : resp.Perm (b.enum.map (fun p => (embedOf p.2, p.1)))) :
    resp.mergeSort (fun a b => a.2 ≤ b.2) =
      b.enum.map (fun p => (embedOf p.2, p.1)) := by
  classical
  set canon := b.enum.map (fun p => (embedOf p.2, p.1)) with hcanon
  have hkeys : canon.map Prod.snd = List.range b.length := by
    rw [hcanon, List.map_map]
    have hc : (Prod.snd ∘ fun p : Nat × Str => (embedOf p.2, p.1)) = Prod.fst := rfl
    rw [hc, List.enum_map_fst]
  have hcanonlt : canon.Pairwise (fun x y => x.2 < y.2) := by
    have h1 : (canon.map Prod.snd).Pairwise (· < ·) := by
      rw [hkeys]
      exact List.pairwise_lt_range _
    exact List.pairwise_map.mp h1
  have hperm2 : (resp.mergeSort (fun a b => a.2 ≤ b.2)).Perm canon :=
    (List.mergeSort_perm resp _).trans h
  have hnodup : ((resp.mergeSort (fun a b => a.2 ≤ b.2)).map Prod.snd).Nodup := by
    have hpk : ((resp.mergeSort (fun a b => a.2 ≤ b.2)).map Prod.snd).Perm
        (canon.map Prod.snd) := hperm2.map _
    rw [hkeys] at hpk
    exact hpk.nodup_iff.mpr (List.nodup_range _)
  have hsorted : (resp.mergeSort (fun a b => a.2 ≤ b.2)).Pairwise
      (fun x y => x.2 < y.2) := by
    have hle := @List.sorted_mergeSort (Vec × Nat)
      (fun a b : Vec × Nat => decide (a.2 ≤ b.2))
      (fun a b c hab hbc => by
        simp only [decide_eq_true_eq] at *
        exact le_trans hab hbc)
      (fun a b => by
        simp only [Bool.or_eq_true, decide_eq_true_eq]
        exact Nat.le_total a.2 b.2)
      resp
    have hne : (resp.mergeSort (fun a b => a.2 ≤ b.2)).Pairwise
        (fun x y => x.2 ≠ y.2) := List.pairwise_map.mp hnodup
    exact (hle.and hne).imp (fun hx => lt_of_le_of_ne (by simpa using hx.1) hx.2)
  haveI : IsAntisymm (Vec × Nat) (fun x y => x.2 < y.2) :=
    ⟨fun a b h1 h2 => absurd (Nat.lt_trans h1 h2) (Nat.lt_irrefl _)⟩
  exact List.eq_of_perm_of_sorted hperm2 hsorted hcanonlt

theorem zip_self_map (l : List α) (g : α → β) :
    l.zip (l.map g) = l.map (fun x => (x, g x)) := by
  induction l with
  | nil => rfl
  | cons a t ih => simp [List.zip_cons_cons, ih]

theorem chunkBatches_flatten_aux : ∀ (n : Nat) (l : List α), l.length ≤ n →
    (chunkBatches l).flatten = l := by
  intro n
  induction n with
  | zero =>
      intro l h
      have hl : l = [] := List.length_eq_zero.mp (Nat.le_zero.mp h)
      subst hl
      rw [chunkBatches]
      rfl
  | succ n ih =>
      intro l h
      match l with
      | [] =>
          rw [chunkBatches]
          rfl
      | x :: xs =>
          rw [chunkBatches]
          simp only [List.flatten_cons]
          rw [ih (((x :: xs).drop DEFAULT_EMBEDDING_BATCH_SIZE)) (by
            simp only [List.length_drop, List.length_cons, DEFAULT_EMBEDDING_BATCH_SIZE]
            simp only [List.length_cons] at h
            omega)]
          exact List.take_append_drop _ _

theorem chunkBatches_flatten (l : List α) : (chunkBatches l).flatten = l :=
  chunkBatches_flatten_aux l.length l le_rfl

theorem foldl_set_length (embedOf : Str → Vec) (A : List (Nat × Str)) :
    ∀ init : List Vec,
      (A.foldl (fun acc p => acc.set p.1 (embedOf p.2)) init).length = init.length := by
  induction A with
  | nil => intro init; rfl
  | cons p rest ih =>
      intro init
      rw [List.foldl_cons, ih, List.length_set]

theorem foldl_set_not_mem (embedOf : Str → Vec) (A : List (Nat × Str)) :
    ∀ (init : List Vec) (i : Nat), i ∉ A.map Prod.fst →
      (A.foldl (fun acc p => acc.set p.1 (embedOf p.2)) init).getD i [] =
        init.getD i [] := by
  induction A with
  | nil => intro init i _; rfl
  | cons p rest ih =>
      intro init i hi
      simp only [List.map_cons, List.mem_cons, not_or] at hi
      rw [List.foldl_cons, ih _ _ (by simpa using hi.2)]
      simp only [List.getD_eq_getElem?_getD, List.getElem?_set_ne (Ne.symm hi.1)]

theorem foldl_set_mem (embedOf : Str → Vec) (A : List (Nat × Str)) :
    ∀ (init : List Vec) (i : Nat) (t : Str), (i, t) ∈ A →
      (A.map Prod.fst).Nodup → i < init.length →
      (A.foldl (fun acc p => acc.set p.1 (embedOf p.2)) init).getD i [] =
        embedOf t := by
  induction A with
  | nil => intro init i t h; cases h
  | cons p rest ih =>
      intro init i t hmem hnd hlen
      simp only [List.map_cons, List.nodup_cons] at hnd
      rcases List.mem_cons.mp hmem with heq | htail
      · subst heq
        rw [List.foldl_cons,
          foldl_set_not_mem embedOf rest _ _ (by simpa using hnd.1)]
        simp only [List.getD_eq_getElem?_getD]
        rw [List.getElem?_set_self (by simpa using hlen)]
        rfl
      · rw [List.foldl_cons]
        exact ih _ _ _ htail hnd.2 (by simpa using hlen)

/-- C3: given a remote embedding endpoint that answers each batch with the
(index-tagged) embeddings of that batch in an arbitrary order,
`generateEmbeddings` returns one vector per input text, position `i`
holding the embedding generated for (the trimmed) `texts[i]`, with every
blank or whitespace-only input receiving the zero-length placeholder
vector at its original position. -/
theorem generateEmbeddings_spec (api : List Str → List (Vec × Nat))
    (embedOf : Str → Vec)
    (hapi : ∀ b : List Str, (api b).Perm (b.enum.map (fun p => (embedOf p.2, p.1))))
    (texts : List Str) :
    (generateEmbeddings api texts).length = texts.length ∧
    ∀ i < texts.length,
      (generateEmbeddings api texts).getD i [] =
        if jsTrim (texts.getD i []) = [] then []
        else embedOf (jsTrim (texts.getD i [])) := by
  classical
  by_cases h0 : texts.length = 0
  · rw [generateEmbeddings, if_pos h0]
    exact ⟨h0.symm, fun i hi => absurd hi (by omega)⟩
  · rw [generateEmbeddings, if_neg h0]
    set validTexts := (texts.enum.filter (fun p => !(jsTrim p.2).isEmpty)).map
      (fun p => (p.1, jsTrim p.2)) with hvt
    have hvalid_mem : ∀ q ∈ validTexts,
        q.1 < texts.length ∧ q.2 = jsTrim (texts.getD q.1 []) ∧ q.2 ≠ [] := by
      intro q hq
      rw [hvt] at hq
      rcases List.mem_map.mp hq with ⟨p, hpf, hpe⟩
      have hpred := List.of_mem_filter hpf
      have hpenum := List.mem_of_mem_filter hpf
      have hget : texts[p.1]? = some p.2 := by
        have := @List.mem_enum_iff_get? _ p texts
        simpa using this.mp (by simpa using hpenum)
      have hlt : p.1 < texts.length := by
        have := List.getElem?_eq_some_iff.mp hget
        exact this.1
      refine ⟨by simpa [← hpe] using hlt, ?_, ?_⟩
      · rw [← hpe]
        simp [List.getD_eq_getElem?_getD, hget]
      · rw [← hpe]
        simp only [ne_eq]
        intro hcon
        rw [hcon] at hpred
        simp at hpred
    have hvalid_complete : ∀ i < texts.length, jsTrim (texts.getD i []) ≠ [] →
        (i, jsTrim (texts.getD i [])) ∈ validTexts := by
      intro i hi hne
      rw [hvt]
      refine List.mem_map.mpr ⟨(i, texts.getD i []), ?_, rfl⟩
      refine List.mem_filter.mpr ⟨?_, ?_⟩
      · refine (@List.mem_enum_iff_get? _ (i, texts.getD i []) texts).mpr ?_
        simp [List.getD_eq_getElem?_getD, List.getElem?_eq_getElem hi]
      · simpa using hne
    have hvalid_nodup : (validTexts.map Prod.fst).Nodup := by
      rw [hvt, List.map_map]
      have hcomp : (Prod.fst ∘ fun p : Nat × Str => (p.1, jsTrim p.2)) =
          Prod.fst := rfl
      rw [hcomp]
      have hsub : ((texts.enum.filter (fun p => !(jsTrim p.2).isEmpty)).map
          Prod.fst).Sublist (texts.enum.map Prod.fst) :=
        (List.filter_sublist _).map _
      exact hsub.nodup (List.nodup_enum_map_fst _)
    by_cases hve : validTexts.isEmpty
    · rw [if_pos hve]
      have hnil : validTexts = [] := by simpa using hve
      constructor
      · simp
      · intro i hi
        have htrim : jsTrim (texts.getD i []) = [] := by
          by_contra hne
          have := hvalid_complete i hi hne
          rw [hnil] at this
          cases this
        rw [if_pos htrim]
        simp [List.getD_eq_getElem?_getD, List.getElem?_eq_getElem hi]
    · rw [if_neg hve]
      have hbody : ∀ (r : List Vec) (batch : List (Nat × Str)),
          ((batch.zip
              (((api (batch.map (fun it => it.2))).mergeSort
                  (fun a b => a.2 ≤ b.2)).map (fun d => d.1))).foldl
            (fun acc p => acc.set p.1.1 p.2) r) =
          batch.foldl (fun acc p => acc.set p.1 (embedOf p.2)) r := by
        intro r batch
        rw [mergeSort_perm_enum_eq embedOf _ _ (hapi _)]
        have hmap : (((batch.map (fun it => it.2)).enum.map
            (fun p => (embedOf p.2, p.1))).map (fun d => d.1)) =
            batch.map (fun p => embedOf p.2) := by
          rw [List.map_map]
          have hc : ((fun d : Vec × Nat => d.1) ∘
              fun p : Nat × Str => (embedOf p.2, p.1)) =
              (fun p : Nat × Str => embedOf p.2) := rfl
          rw [hc]
          have h1 : (batch.map (fun it : Nat × Str => it.2)).enum.map
              (fun p : Nat × Str => embedOf p.2) =
              ((batch.map (fun it : Nat × Str => it.2)).enum.map Prod.snd).map
                embedOf := by
            rw [List.map_map]
            rfl
          rw [h1, List.enum_map_snd, List.map_map]
          rfl
        rw [hmap, zip_self_map, List.foldl_map]
      have hfold : (chunkBatches validTexts).foldl
          (fun results batch =>
            (batch.zip
                (((api (batch.map (fun it => it.2))).mergeSort
                    (fun a b => a.2 ≤ b.2)).map (fun d => d.1))).foldl
              (fun acc p => acc.set p.1.1 p.2) results)
          (List.replicate texts.length []) =
          validTexts.foldl (fun acc p => acc.set p.1 (embedOf p.2))
            (List.replicate texts.length []) := by
        rw [List.foldl_ext _ _ _ (fun r batch _ => hbody r batch)]
        conv_rhs => rw [← chunkBatches_flatten validTexts]
        rw [List.foldl_flatten]
      rw [hfold]
      constructor
      · rw [foldl_set_length, List.length_replicate]
      · intro i hi
        by_cases htrim : jsTrim (texts.getD i []) = []
        · rw [if_pos htrim]
          have hnotmem : i ∉ validTexts.map Prod.fst := by
            intro hmem
            rcases List.mem_map.mp hmem with ⟨q, hq, hq1⟩
            rcases hvalid_mem q hq with ⟨_, hq2, hq3⟩
            rw [hq1] at hq2
            exact hq3 (hq2.trans htrim)
          rw [foldl_set_not_mem _ _ _ _ hnotmem]
          simp [List.getD_eq_getElem?_getD, List.getElem?_eq_getElem
            (by simpa using hi : i < (List.replicate texts.length ([] : Vec)).length)]
        · rw [if_neg htrim]
          exact foldl_set_mem embedOf validTexts _ i _
            (hvalid_complete i hi htrim) hvalid_nodup
            (by simpa using hi)

/-- Witness for C3 at a concrete input, with an endpoint that answers in
reversed order. -/
theorem generateEmbeddings_spec_witness :
    (generateEmbeddings
        (fun b => (b.enum.map (fun p => ([(p.2.length : ℚ)], p.1))).reverse)
        ["a".data, "  ".data, "big".data]).length =
      ["a".data, "  ".data, "big".data].length ∧
    ∀ i < ["a".data, "  ".data, "big".data].length,
      (generateEmbeddings
          (fun b => (b.enum.map (fun p => ([(p.2.length : ℚ)], p.1))).reverse)
          ["a".data, "  ".data, "big".data]).getD i [] =
        if jsTrim (["a".data, "  ".data, "big".data].getD i []) = [] then []
        else [(((jsTrim (["a".data, "  ".data, "big".data].getD i [])).length : ℚ))] :=
  generateEmbeddings_spec _ (fun t => [(t.length : ℚ)])
    (fun b => List.reverse_perm _) ["a".data, "  ".data, "big".data]

theorem foldl_add_sq (v : List ℝ) : ∀ a : ℝ,
    v.foldl (fun s x => s + x * x) a = a + sumSq v := by
  induction v with
  | nil => intro a; simp [sumSq]
  | cons x t ih =>
      intro a
      simp only [List.foldl_cons, sumSq, ih (a + x * x), ih (0 + x * x)]
      ring

theorem sumSq_cons (x : ℝ) (t : List ℝ) : sumSq (x :: t) = x * x + sumSq t := by
  rw [sumSq, List.foldl_cons, foldl_add_sq]
  ring

theorem sumSq_nonneg (v : List ℝ) : 0 ≤ sumSq v := by
  induction v with
  | nil => simp [sumSq]
  | cons x t ih =>
      rw [sumSq_cons]
      nlinarith [sq_nonneg x]

theorem foldl_add_dot (l : List (ℝ × ℝ)) : ∀ a : ℝ,
    l.foldl (fun s p => s + p.1 * p.2) a = a + l.foldl (fun s p => s + p.1 * p.2) 0 := by
  induction l with
  | nil => intro a; simp
  | cons x t ih =>
      intro a
      simp only [List.foldl_cons, ih (a + x.1 * x.2), ih (0 + x.1 * x.2)]
      ring

theorem dotProd_cons (a b : ℝ) (t1 t2 : List ℝ) :
    dotProd (a :: t1) (b :: t2) = a * b + dotProd t1 t2 := by
  rw [dotProd, List.zip_cons_cons, List.foldl_cons, foldl_add_dot]
  rw [dotProd]
  ring

theorem dotProd_sq_le (v1 : List ℝ) : ∀ v2 : List ℝ,
    (dotProd v1 v2) ^ 2 ≤ sumSq v1 * sumSq v2 := by
  induction v1 with
  | nil =>
      intro v2
      have h0 : dotProd [] v2 = 0 := by simp [dotProd]
      rw [h0]
      have h1 : sumSq ([] : List ℝ) = 0 := by simp [sumSq]
      rw [h1]
      simp
  | cons a t1 ih =>
      intro v2
      cases v2 with
      | nil =>
          have h0 : dotProd (a :: t1) [] = 0 := by simp [dotProd]
          rw [h0]
          have h2 : sumSq ([] : List ℝ) = 0 := by simp [sumSq]
          rw [h2]
          simp
      | cons b t2 =>
          have hIH := ih t2
          have hs1 := sumSq_nonneg t1
          have hs2 := sumSq_nonneg t2
          rw [dotProd_cons, sumSq_cons, sumSq_cons]
          rcases eq_or_lt_of_le hs1 with hs1z | hs1p
          · have hd0 : dotProd t1 t2 = 0 := by nlinarith [sq_nonneg (dotProd t1 t2)]
            rw [hd0, ← hs1z]
            nlinarith [mul_nonneg (mul_self_nonneg a) hs2]
          · nlinarith [sq_nonneg (a * dotProd t1 t2 - sumSq t1 * b), hs1p, hs2,
              sq_nonneg a, sq_nonneg b, hIH,
              mul_le_mul_of_nonneg_left hIH (le_of_lt hs1p),
              mul_le_mul_of_nonneg_left hIH (sq_nonneg a)]

/-- C10: for equal-length vectors `cosineSimilarity` is total (it answers
`some` value rather than throwing); the value is `0` whenever either
vector has zero magnitude (zero-length vectors included), so no division
by zero occurs, and the value always lies in `[-1, 1]`. -/
theorem cosineSimilarity_total_bounded (vec1 vec2 : List ℝ)
    (h : vec1.length = vec2.length) :
    cosineSimilarity vec1 vec2 = some (cosineValue vec1 vec2) ∧
    -1 ≤ cosineValue vec1 vec2 ∧ cosineValue vec1 vec2 ≤ 1 ∧
    ((sumSq vec1 = 0 ∨ sumSq vec2 = 0) → cosineValue vec1 vec2 = 0) := by
  classical
  refine ⟨by rw [cosineSimilarity, if_pos h], ?_⟩
  rw [cosineValue]
  by_cases hm : Real.sqrt (sumSq vec1) * Real.sqrt (sumSq vec2) = 0
  · rw [if_pos hm]
    norm_num
  · rw [if_neg hm]
    have hs1 := sumSq_nonneg vec1
    have hs2 := sumSq_nonneg vec2
    have hmnn : 0 ≤ Real.sqrt (sumSq vec1) * Real.sqrt (sumSq vec2) :=
      mul_nonneg (Real.sqrt_nonneg _) (Real.sqrt_nonneg _)
    have hmpos : 0 < Real.sqrt (sumSq vec1) * Real.sqrt (sumSq vec2) :=
      lt_of_le_of_ne hmnn (Ne.symm hm)
    have habs : |dotProd vec1 vec2| ≤
        Real.sqrt (sumSq vec1) * Real.sqrt (sumSq vec2) := by
      have h1 : |dotProd vec1 vec2| = Real.sqrt ((dotProd vec1 vec2) ^ 2) := by
        rw [Real.sqrt_sq_eq_abs]
      rw [h1, ← Real.sqrt_mul hs1]
      exact Real.sqrt_le_sqrt (dotProd_sq_le vec1 vec2)
    have hle := abs_le.mp habs
    refine ⟨?_, ?_, ?_⟩
    · rw [le_div_iff hmpos]
      nlinarith [hle.1]
    · rw [div_le_one hmpos]
      exact hle.2
    · intro hz
      exfalso
      apply hm
      rcases hz with hz | hz
      · rw [hz, Real.sqrt_zero, zero_mul]
      · rw [hz, Real.sqrt_zero, mul_zero]

/-- Witness for C10 at concrete vectors. -/
theorem cosineSimilarity_total_bounded_witness :
    cosineSimilarity [(1 : ℝ), 0] [(0 : ℝ), 2] =
      some (cosineValue [(1 : ℝ), 0] [(0 : ℝ), 2]) ∧
    -1 ≤ cosineValue [(1 : ℝ), 0] [(0 : ℝ), 2] ∧
    cosineValue [(1 : ℝ), 0] [(0 : ℝ), 2] ≤ 1 ∧
    ((sumSq [(1 : ℝ), 0] = 0 ∨ sumSq [(0 : ℝ), 2] = 0) →
      cosineValue [(1 : ℝ), 0] [(0 : ℝ), 2] = 0) :=
  cosineSimilarity_total_bounded [(1 : ℝ), 0] [(0 : ℝ), 2] rfl

theorem isSepJoin_nil (S : List Str) : IsSepJoin S [] :=
  ⟨[], by simp, rfl⟩

theorem isSepJoin_single (S : List Str) {g : Str} (h : g ∈ S) : IsSepJoin S g :=
  ⟨[g], by simpa using h, by simp⟩

theorem isSepJoin_append (S : List Str) {g1 g2 : Str}
    (h1 : IsSepJoin S g1) (h2 : IsSepJoin S g2) : IsSepJoin S (g1 ++ g2) := by
  rcases h1 with ⟨p1, hp1, he1⟩
  rcases h2 with ⟨p2, hp2, he2⟩
  exact ⟨p1 ++ p2, by
    intro p hp
    rcases List.mem_append.mp hp with h | h
    · exact hp1 p h
    · exact hp2 p h, by rw [he1, he2, List.flatten_append]⟩

theorem chunksChain_nil (S : List Str) : ChunksChain S [] [] :=
  ⟨[[]], rfl, by simpa using isSepJoin_nil S, rfl⟩

theorem chunksChain_single (S : List Str) (c : Str) : ChunksChain S c [c] :=
  ⟨[[], []], rfl, by simpa using isSepJoin_nil S, by simp [joinInterleave]⟩

theorem joinInterleave_cons_gap (g g0 : Str) (gs : List Str) (cs : List Str) :
    joinInterleave ((g ++ g0) :: gs) cs = g ++ joinInterleave (g0 :: gs) cs := by
  cases cs with
  | nil => rfl
  | cons c ct => simp [joinInterleave]

theorem chunksChain_prepend_gap (S : List Str) {g t : Str} {l : List Str}
    (hg : IsSepJoin S g) (h : ChunksChain S t l) : ChunksChain S (g ++ t) l := by
  rcases h with ⟨gaps, hlen, hmem, hjoin⟩
  cases gaps with
  | nil => simp at hlen
  | cons g0 gs =>
      refine ⟨(g ++ g0) :: gs, by simpa using hlen, ?_, ?_⟩
      · intro x hx
        rcases List.mem_cons.mp hx with hx | hx
        · subst hx
          exact isSepJoin_append S hg (hmem g0 (List.mem_cons_self _ _))
        · exact hmem x (List.mem_cons_of_mem _ hx)
      · rw [joinInterleave_cons_gap, ← hjoin]

theorem chunksChain_cons_chunk (S : List Str) {t : Str} {l : List Str} (c : Str)
    (h : ChunksChain S t l) : ChunksChain S (c ++ t) (c :: l) := by
  rcases h with ⟨gaps, hlen, hmem, hjoin⟩
  cases gaps with
  | nil => simp at hlen
  | cons g0 gs =>
      refine ⟨[] :: g0 :: gs, by simpa using hlen, ?_, ?_⟩
      · intro x hx
        rcases List.mem_cons.mp hx with hx | hx
        · subst hx
          exact isSepJoin_nil S
        · exact hmem x hx
      · simp only [joinInterleave, List.nil_append]
        rw [← hjoin]

theorem chunksChain_append (S : List Str) : ∀ {l1 : List Str} {t1 t2 : Str}
    {l2 : List Str}, ChunksChain S t1 l1 → ChunksChain S t2 l2 →
    ChunksChain S (t1 ++ t2) (l1 ++ l2) := by
  intro l1
  induction l1 with
  | nil =>
      intro t1 t2 l2 h1 h2
      rcases h1 with ⟨gaps, hlen, hmem, hjoin⟩
      cases gaps with
      | nil => simp at hlen
      | cons g0 gs =>
          have hgs : gs = [] := by
            cases gs with
            | nil => rfl
            | cons a b => simp at hlen
          subst hgs
          have ht1 : t1 = g0 := hjoin
          subst ht1
          simpa using chunksChain_prepend_gap S (hmem t1 (by simp)) h2
  | cons c l1' ih =>
      intro t1 t2 l2 h1 h2
      rcases h1 with ⟨gaps, hlen, hmem, hjoin⟩
      cases gaps with
      | nil => simp at hlen
      | cons g0 gs =>
          have hchain' : ChunksChain S (joinInterleave gs l1') l1' :=
            ⟨gs, by simpa using hlen, fun g hg => hmem g (List.mem_cons_of_mem _ hg),
             rfl⟩
          have hIH := ih hchain' h2
          have := chunksChain_prepend_gap S (hmem g0 (List.mem_cons_self _ _))
            (chunksChain_cons_chunk S c hIH)
          rw [hjoin]
          simpa [joinInterleave, List.append_assoc] using this

theorem joinInterleave_replicate_nil : ∀ l : List Str,
    joinInterleave (List.replicate (l.length + 1) []) l = l.flatten := by
  intro l
  induction l with
  | nil => rfl
  | cons c ct ih =>
      simp only [List.length_cons, List.replicate_succ, joinInterleave,
        List.nil_append, List.flatten_cons]
      rw [← List.replicate_succ, ih]

theorem chunksChain_of_flatten (S : List Str) {l : List Str} {text : Str}
    (h : l.flatten = text) : ChunksChain S text l := by
  refine ⟨List.replicate (l.length + 1) [], by simp, ?_, ?_⟩
  · intro g hg
    rw [List.eq_of_mem_replicate hg]
    exact isSepJoin_nil S
  · rw [joinInterleave_replicate_nil, h]

theorem charLoop_flatten_aux : ∀ (n : Nat) (text : Str) (cs : Nat)
    (h1 : 0 < cs) (h2 : cs ≤ cs) (start : Nat), text.length - start ≤ n →
    (charLoop text cs cs h1 h2 start).flatten = text.drop start := by
  intro n
  induction n with
  | zero =>
      intro text cs h1 h2 start hle
      rw [charLoop]
      rw [dif_neg (by omega)]
      rw [List.drop_eq_nil_of_le (by omega)]
      rfl
  | succ n ih =>
      intro text cs h1 h2 start hle
      rw [charLoop]
      by_cases hlt : start < text.length
      · rw [dif_pos hlt]
        simp only [List.flatten_cons]
        have hstart2 : (if min (start + cs) text.length ≤ start + cs ∧
            start + cs < text.length then min (start + cs) text.length
            else start + cs) = start + cs := by
          by_cases hc : start + cs < text.length
          · rw [if_pos ⟨Nat.min_le_left _ _, hc⟩]
            omega
          · rw [if_neg (by
              intro hcon
              exact hc hcon.2)]
        rw [hstart2, ih text cs h1 h2 (start + cs) (by omega)]
        have htake : (text.drop start).take (min (start + cs) text.length - start) =
            (text.drop start).take cs := by
          rw [List.take_eq_take]
          simp only [List.length_drop]
          omega
        rw [htake, ← List.drop_drop]
        rw [Nat.add_comm start cs] at *
        rw [List.take_append_drop]
      · rw [dif_neg hlt]
        rw [List.drop_eq_nil_of_le (by omega)]
        rfl

theorem characterLevelSplit_flatten_zero (text : Str) (cs : Nat) :
    (characterLevelSplit text cs 0).flatten = text := by
  rw [characterLevelSplit]
  by_cases h : cs ≤ 0
  · rw [dif_pos h]
    simp
  · rw [dif_neg h]
    have := charLoop_flatten_aux text.length text cs (by omega) (by omega) 0
      (by omega)
    simpa using this

theorem jsIndexOf_decomp {text sep : Str} {i : Nat} (hsep : sep ≠ [])
    (h : jsIndexOf text sep 0 = some i) :
    text = text.take i ++ sep ++ text.drop (i + sep.length) := by
  have hfind := h
  rw [jsIndexOf, if_neg hsep] at hfind
  have hpred := List.find?_some hfind
  have hmatch : matchAt text sep i = true := by
    simpa using hpred
  rw [matchAt] at hmatch
  have hseg : (text.drop i).take sep.length = sep := by
    simpa using hmatch
  conv_lhs => rw [← List.take_append_drop i text]
  have hdec : text.drop i = sep ++ text.drop (i + sep.length) := by
    conv_lhs => rw [← List.take_append_drop sep.length (text.drop i)]
    rw [hseg, List.drop_drop, Nat.add_comm]
  rw [hdec, List.append_assoc]

theorem jsSplit_decomp (sep : Str) (hsep : sep ≠ []) : ∀ (n : Nat) (text : Str),
    text.length ≤ n → ∃ s0 ss, jsSplit sep text = s0 :: ss ∧
      text = s0 ++ (ss.map (fun s => sep ++ s)).flatten := by
  intro n
  induction n with
  | zero =>
      intro text hlen
      have htext : text = [] := List.length_eq_zero.mp (Nat.le_zero.mp hlen)
      subst htext
      have hnone : jsIndexOf [] sep 0 = none := by
        rw [jsIndexOf, if_neg hsep]
        rfl
      refine ⟨[], [], ?_, by simp⟩
      rw [jsSplit, dif_neg hsep]
      split
      · rfl
      · rename_i i heq
        rw [hnone] at heq
        cases heq
  | succ n ih =>
      intro text hlen
      rw [jsSplit, dif_neg hsep]
      split
      · rename_i hnone
        exact ⟨text, [], rfl, by simp⟩
      · rename_i i hsome
        have hi := jsIndexOf_some_lt hsep hsome
        have hslen : 0 < sep.length := List.length_pos.mpr hsep
        obtain ⟨r0, rs, hr, hrdec⟩ := ih (text.drop (i + sep.length)) (by
          simp only [List.length_drop]
          omega)
        refine ⟨text.take i, r0 :: rs, by rw [hr], ?_⟩
        conv_lhs => rw [jsIndexOf_decomp hsep hsome]
        rw [hrdec]
        simp [List.append_assoc]

theorem mergeLoop_chain (S seps : List Str) (cs : Nat) (sep : Str)
    (hsepS : sep ∈ S)
    (hrec : ∀ t : Str, ChunksChain S t (splitBySeparators seps cs 0 t)) :
    ∀ (splits : List Str) (current : Str),
      ChunksChain S (current ++ (splits.map (fun s => sep ++ s)).flatten)
        (mergeLoop seps cs 0 sep current splits) := by
  intro splits
  induction splits with
  | nil =>
      intro current
      rw [mergeLoop]
      by_cases hcur : current = []
      · rw [if_pos hcur, hcur]
        simpa using chunksChain_nil S
      · rw [if_neg hcur]
        simpa using chunksChain_single S current
  | cons s ss ih =>
      intro current
      rw [mergeLoop]
      by_cases hcur : current = []
      · subst hcur
        simp only [List.map_cons, List.flatten_cons, List.nil_append,
          eq_self_iff_true, if_true]
        by_cases hfit : s.length ≤ cs
        · rw [if_pos hfit]
          have := chunksChain_prepend_gap S (isSepJoin_single S hsepS) (ih s)
          simpa [List.append_assoc] using this
        · rw [if_neg hfit, if_pos (by omega)]
          have h1 := chunksChain_append S (hrec s) (ih [])
          have := chunksChain_prepend_gap S (isSepJoin_single S hsepS) (by simpa using h1)
          simpa [List.append_assoc] using this
      · simp only [if_neg hcur, List.map_cons, List.flatten_cons]
        by_cases hfit : (current ++ sep ++ s).length ≤ cs
        · rw [if_pos hfit]
          have := ih (current ++ sep ++ s)
          simpa [List.append_assoc] using this
        · rw [if_neg hfit]
          by_cases hbig : cs < s.length
          · rw [if_pos hbig]
            have h1 := chunksChain_append S (hrec s) (ih [])
            have h2 := chunksChain_prepend_gap S (isSepJoin_single S hsepS)
              (by simpa using h1)
            have h3 := chunksChain_cons_chunk S current h2
            simpa [List.append_assoc] using h3
          · rw [if_neg hbig]
            have h2 := chunksChain_prepend_gap S (isSepJoin_single S hsepS) (ih s)
            have h3 := chunksChain_cons_chunk S current h2
            simpa [List.append_assoc] using h3

theorem splitBySeparators_chain (S : List Str) : ∀ (seps : List Str),
    (∀ x ∈ seps, x ∈ S) → ∀ (cs : Nat) (text : Str),
    ChunksChain S text (splitBySeparators seps cs 0 text) := by
  intro seps
  induction seps with
  | nil =>
      intro _ cs text
      rw [splitBySeparators]
      exact chunksChain_of_flatten S (characterLevelSplit_flatten_zero text cs)
  | cons sep rest ih =>
      intro hsub cs text
      have hrest : ∀ x ∈ rest, x ∈ S := fun x hx =>
        hsub x (List.mem_cons_of_mem _ hx)
      rw [splitBySeparators]
      by_cases hsep : sep = []
      · rw [if_pos hsep]
        exact chunksChain_of_flatten S (characterLevelSplit_flatten_zero text cs)
      · rw [if_neg hsep]
        by_cases hone : (jsSplit sep text).length = 1
        · rw [if_pos hone]
          exact ih hrest cs text
        · rw [if_neg hone, if_pos (Or.inr rfl)]
          obtain ⟨s0, ss, hsplit, hdecomp⟩ :=
            jsSplit_decomp sep hsep text.length text le_rfl
          rw [hsplit]
          have hsepS : sep ∈ S := hsub sep (List.mem_cons_self _ _)
          have hrec := ih hrest cs
          rw [mergeLoop]
          simp only [eq_self_iff_true, if_true]
          by_cases hfit : s0.length ≤ cs
          · rw [if_pos hfit]
            have := mergeLoop_chain S rest cs sep hsepS hrec ss s0
            rw [hdecomp]
            exact this
          · rw [if_neg hfit, if_pos (by omega), List.nil_append]
            have h1 := chunksChain_append S (hrec s0)
              (mergeLoop_chain S rest cs sep hsepS hrec ss [])
            rw [hdecomp]
            simpa using h1

theorem foldl_recoverStep_contents (text : Str) (base : Nat) :
    ∀ (chunks : List Str) (acc : List Span),
      ((chunks.foldl (recoverStep text base) acc).map (fun sp => sp.content)) =
        acc.map (fun sp => sp.content) ++ chunks := by
  intro chunks
  induction chunks with
  | nil => intro acc; simp
  | cons c ct ih =>
      intro acc
      rw [List.foldl_cons, ih]
      rw [recoverStep]
      simp

theorem recursiveCharacterSplit_contents (seps : List Str) (text : Str)
    (cs ov base : Nat) :
    (recursiveCharacterSplit seps text cs ov base).map (fun sp => sp.content) =
      if text.length ≤ cs then [text] else splitBySeparators seps cs ov text := by
  rw [recursiveCharacterSplit]
  by_cases h : text.length ≤ cs
  · rw [if_pos h, if_pos h]
    rfl
  · rw [if_neg h, if_neg h]
    rw [foldl_recoverStep_contents]
    rfl

theorem chunkWithStrategy_contents (seps : List Str) (content : Str)
    (strategy : ChunkStrategyConfig) (hne : content ≠ []) :
    (chunkWithStrategy seps content strategy).map (fun p => p.content) =
      (recursiveCharacterSplit seps content strategy.parentChunkSize
        (strategy.parentChunkSize * strategy.overlapPercent / 100) 0).map
          (fun sp => sp.content) := by
  rw [chunkWithStrategy, if_neg hne]
  rw [List.map_map]
  set parents := recursiveCharacterSplit seps content strategy.parentChunkSize
    (strategy.parentChunkSize * strategy.overlapPercent / 100) 0 with hp
  have h1 : parents.enum.map (fun p : Nat × Span => p.2.content) =
      (parents.enum.map Prod.snd).map (fun sp => sp.content) := by
    rw [List.map_map]
    rfl
  have h2 : (ParentChunkResult.content ∘ fun p : Nat × Span =>
      ({ content := p.2.content, parentIndex := p.1,
         startPosition := p.2.startPosition, endPosition := p.2.endPosition,
         children :=
           (recursiveCharacterSplit seps p.2.content strategy.childChunkSize
               (strategy.childChunkSize * strategy.overlapPercent / 100)
               p.2.startPosition).enum.map (fun c =>
             { content := c.2.content, chunkIndex := c.1,
               startPosition := c.2.startPosition,
               endPosition := c.2.endPosition }) } : ParentChunkResult)) =
      (fun p : Nat × Span => p.2.content) := rfl
  rw [h2, h1, List.enum_map_snd]

unseal jsSplit splitBySeparators mergeLoop charLoop in
/-- C1 counterexample: with `overlap_percent = 0` the concatenation of the
parent chunks of `"ab\n\ncd"` (parent size 3) is `"abcd"` — the paragraph
separator at the chunk boundary is dropped, so the concatenation does not
reproduce the original text. -/
theorem chunkWithStrategy_zero_overlap_concat_ne :
    ((chunkWithStrategy RECURSIVE_SEPARATORS "ab\n\ncd".data
        { parentChunkSize := 3, childChunkSize := 3, overlapPercent := 0 }).map
      (fun p => p.content)).flatten ≠ "ab\n\ncd".data := by
  decide

/-- C1 amended: with `overlap_percent = 0` the parent chunks occur in the
original text in `parent_index` order, pairwise disjoint (no character is
duplicated), but the separator occurrences at chunk boundaries are
dropped: the text equals the parents interleaved with gap strings that
consist solely of separators from `RECURSIVE_SEPARATORS`, so concatenating
the parents reproduces the original only up to those dropped boundary
separators. -/
theorem chunkWithStrategy_zero_overlap_parents (content : Str)
    (strategy : ChunkStrategyConfig) (hne : content ≠ [])
    (hov : strategy.overlapPercent = 0) :
    ChunksChain RECURSIVE_SEPARATORS content
      ((chunkWithStrategy RECURSIVE_SEPARATORS content strategy).map
        (fun p => p.content)) := by
  rw [chunkWithStrategy_contents _ _ _ hne, recursiveCharacterSplit_contents]
  rw [hov, Nat.mul_zero, Nat.zero_div]
  by_cases hlen : content.length ≤ strategy.parentChunkSize
  · rw [if_pos hlen]
    exact chunksChain_single _ content
  · rw [if_neg hlen]
    exact splitBySeparators_chain RECURSIVE_SEPARATORS RECURSIVE_SEPARATORS
      (fun x hx => hx) strategy.parentChunkSize content

/-- Witness for C1 (amended) at a concrete input. -/
theorem chunkWithStrategy_zero_overlap_parents_witness :
    ChunksChain RECURSIVE_SEPARATORS "ab\n\ncd".data
      ((chunkWithStrategy RECURSIVE_SEPARATORS "ab\n\ncd".data
          { parentChunkSize := 3, childChunkSize := 3, overlapPercent := 0 }).map
        (fun p => p.content)) :=
  chunkWithStrategy_zero_overlap_parents "ab\n\ncd".data _ (by decide) rfl

theorem head?_dropWhile_false (p : Char → Bool) (l : Str) :
    ∀ c, (l.dropWhile p).head? = some c → p c = false := by
  intro c hc
  cases hd : l.dropWhile p with
  | nil => rw [hd] at hc; cases hc
  | cons r rs =>
      rw [hd] at hc
      have hrc : r = c := by simpa using hc
      have h1 : 0 < (l.dropWhile p).length := by rw [hd]; simp
      have hr := List.dropWhile_get_zero_not p l h1
      have hget : (l.dropWhile p).get ⟨0, h1⟩ = r := by simp [hd]
      rw [hget, hrc] at hr
      simpa using hr

theorem suffix_getLast?_eq {l1 l2 : Str} (h : l1 <:+ l2) (hne : l1 ≠ []) :
    l1.getLast? = l2.getLast? := by
  rcases h with ⟨t, rfl⟩
  rw [List.getLast?_append]
  cases hg : l1.getLast? with
  | none => exact absurd (List.getLast?_eq_none_iff.mp hg) hne
  | some => rfl

theorem jsTrim_getLast (s : Str) :
    ∀ c, (jsTrim s).getLast? = some c → isJsSpace c = false := by
  intro c hc
  rw [jsTrim, List.getLast?_reverse] at hc
  exact head?_dropWhile_false isJsSpace _ c hc

theorem jsTrim_head (s : Str) :
    ∀ c, (jsTrim s).head? = some c → isJsSpace c = false := by
  intro c hc
  rw [jsTrim, List.head?_reverse] at hc
  have hne : (s.dropWhile isJsSpace).reverse.dropWhile isJsSpace ≠ [] := by
    intro h
    rw [h] at hc
    cases hc
  rw [suffix_getLast?_eq (List.dropWhile_suffix _) hne, List.getLast?_reverse] at hc
  exact head?_dropWhile_false isJsSpace s c hc

theorem jsSplitWS_eq_single {l : Str}
    (h : l.dropWhile (fun c => !isJsSpace c) = []) :
    jsSplitWS l = [l.takeWhile (fun c => !isJsSpace c)] := by
  rw [jsSplitWS]
  split
  · rfl
  · rename_i r rs heq
    rw [h] at heq
    cases heq

theorem jsSplitWS_eq_cons {l : Str} {r : Char} {rs : Str}
    (h : l.dropWhile (fun c => !isJsSpace c) = r :: rs) :
    jsSplitWS l = l.takeWhile (fun c => !isJsSpace c) ::
      jsSplitWS (rs.dropWhile isJsSpace) := by
  rw [jsSplitWS]
  split
  · rename_i heq
    rw [h] at heq
    cases heq
  · rename_i r' rs' heq
    rw [h] at heq
    cases heq
    rfl

theorem tokenCount_eq_zero {l : Str} (h : l.dropWhile isJsSpace = []) :
    tokenCount l = 0 := by
  rw [tokenCount]
  split
  · rfl
  · rename_i r rs heq
    rw [h] at heq
    cases heq

theorem tokenCount_eq_succ {l : Str} {r : Char} {rs : Str}
    (h : l.dropWhile isJsSpace = r :: rs) :
    tokenCount l = 1 + tokenCount ((r :: rs).dropWhile (fun c => !isJsSpace c)) := by
  rw [tokenCount]
  split
  · rename_i heq
    rw [h] at heq
    cases heq
  · rename_i r' rs' heq
    rw [h] at heq
    cases heq
    rfl

theorem jsSplitWS_length_eq : ∀ (n : Nat) (l : Str), l.length ≤ n →
    (∀ c, l.head? = some c → isJsSpace c = false) →
    (∀ c, l.getLast? = some c → isJsSpace c = false) →
    (jsSplitWS l).length = max 1 (tokenCount l) := by
  intro n
  induction n with
  | zero =>
      intro l hlen _ _
      have hl : l = [] := List.length_eq_zero.mp (Nat.le_zero.mp hlen)
      subst hl
      rw [jsSplitWS_eq_single (by simp), tokenCount_eq_zero (by simp)]
      rfl
  | succ n ih =>
      intro l hlen hhead hlast
      cases l with
      | nil =>
          rw [jsSplitWS_eq_single (by simp), tokenCount_eq_zero (by simp)]
          rfl
      | cons c0 l' =>
          have hc0 : isJsSpace c0 = false := hhead c0 rfl
          have hdropP : (c0 :: l').dropWhile isJsSpace = c0 :: l' := by
            rw [List.dropWhile_cons, if_neg (by simp [hc0])]
          cases hrest : (c0 :: l').dropWhile (fun c => !isJsSpace c) with
          | nil =>
              rw [jsSplitWS_eq_single hrest]
              rw [tokenCount_eq_succ (hdropP.trans (by rfl) : (c0 :: l').dropWhile isJsSpace = c0 :: l')]
              rw [hrest, tokenCount_eq_zero (by simp)]
              rfl
          | cons r rs =>
              have hrspace : isJsSpace r = true := by
                have := head?_dropWhile_false (fun c => !isJsSpace c) (c0 :: l') r
                  (by rw [hrest]; rfl)
                simpa using this
              set l2 := rs.dropWhile isJsSpace with hl2
              have hpiece : (c0 :: l').takeWhile (fun c => !isJsSpace c) =
                  c0 :: l'.takeWhile (fun c => !isJsSpace c) := by
                rw [List.takeWhile_cons, if_pos (by simp [hc0])]
              have hsplitl : (c0 :: l') =
                  (c0 :: l').takeWhile (fun c => !isJsSpace c) ++ (r :: rs) := by
                conv_lhs => rw [← List.takeWhile_append_dropWhile
                  (fun c => !isJsSpace c) (c0 :: l')]
                rw [hrest]
              have hl2ne : l2 ≠ [] := by
                intro hnil
                have hallspace : ∀ x ∈ rs, isJsSpace x = true :=
                  List.dropWhile_eq_nil_iff.mp hnil
                have hxlast : (r :: rs).getLast (by simp) ∈ r :: rs :=
                  List.getLast_mem _
                have hxspace : isJsSpace ((r :: rs).getLast (by simp)) = true := by
                  rcases List.mem_cons.mp hxlast with hx | hx
                  · rw [hx]; exact hrspace
                  · exact hallspace _ hx
                have hgl : (c0 :: l').getLast? =
                    some ((r :: rs).getLast (by simp)) := by
                  rw [hsplitl, List.getLast?_append,
                    List.getLast?_eq_getLast (r :: rs) (by simp)]
                  rfl
                have := hlast _ hgl
                rw [hxspace] at this
                cases this
              have hl2suffix : l2 <:+ (c0 :: l') := by
                have h1 : l2 <:+ rs := List.dropWhile_suffix _
                have h2 : rs <:+ r :: rs := List.suffix_cons _ _
                have h3 : (r :: rs) <:+ (c0 :: l') := by
                  rw [← hrest]
                  exact List.dropWhile_suffix _
                exact (h1.trans h2).trans h3
              have hl2head : ∀ c, l2.head? = some c → isJsSpace c = false :=
                fun c hc => head?_dropWhile_false isJsSpace rs c hc
              have hl2last : ∀ c, l2.getLast? = some c → isJsSpace c = false := by
                intro c hc
                rw [suffix_getLast?_eq hl2suffix hl2ne] at hc
                exact hlast c hc
              have hl2len : l2.length ≤ n := by
                have h1 : l2.length ≤ rs.length := (List.dropWhile_sublist _).length_le
                have h2 : (c0 :: l').length =
                    ((c0 :: l').takeWhile (fun c => !isJsSpace c)).length +
                      (r :: rs).length := by
                  conv_lhs => rw [hsplitl]
                  rw [List.length_append]
                simp only [List.length_cons] at h2 hlen
                omega
              have hIH := ih l2 hl2len hl2head hl2last
              obtain ⟨r2, rs2, hl2cons⟩ : ∃ r2 rs2, l2 = r2 :: rs2 := by
                cases hx : l2 with
                | nil => exact absurd hx hl2ne
                | cons a b => exact ⟨a, b, rfl⟩
              have hr2 : isJsSpace r2 = false := by
                have := hl2head r2 (by rw [hl2cons]; rfl)
                exact this
              have hl2dropP : l2.dropWhile isJsSpace = r2 :: rs2 := by
                rw [hl2cons, List.dropWhile_cons, if_neg (by simp [hr2])]
              have htcl2 : tokenCount l2 =
                  1 + tokenCount ((r2 :: rs2).dropWhile (fun c => !isJsSpace c)) :=
                tokenCount_eq_succ hl2dropP
              have htcrest : tokenCount (r :: rs) = tokenCount l2 := by
                have hdp : (r :: rs).dropWhile isJsSpace = r2 :: rs2 := by
                  rw [List.dropWhile_cons, if_pos (by simp [hrspace]), ← hl2, hl2cons]
                rw [tokenCount_eq_succ hdp, htcl2]
              have htcl : tokenCount (c0 :: l') = 1 + tokenCount l2 := by
                rw [tokenCount_eq_succ hdropP, hrest, htcrest]
              rw [jsSplitWS_eq_cons hrest, ← hl2]
              simp only [List.length_cons]
              rw [hIH, htcl]
              omega

theorem startsWithWordCI_iff (q w : Str) :
    startsWithWordCI q w = true ↔ w <+: q.map Char.toLower := by
  rw [startsWithWordCI, beq_iff_eq, List.map_take]
  constructor
  · intro h
    rw [← h]
    exact List.take_prefix _ _
  · intro h
    exact (List.prefix_iff_eq_take.mp h).symm

/-- C8 counterexample: the query 怎样进行数据迁移 starts with the question
word 怎样, which the source regex contains but the claim's word list
omits; the code classifies it `hyde` while the claim's rules (no question
word, length below 10) classify it `expansion`. -/
theorem getDefaultStrategy_claim_counterexample :
    (getDefaultStrategy "怎样进行数据迁移".data).strategy ≠
      claimedFallbackStrategy "怎样进行数据迁移".data ∧
    (getDefaultStrategy "怎样进行数据迁移".data).strategy = QueryStrategy.hyde ∧
    claimedFallbackStrategy "怎样进行数据迁移".data = QueryStrategy.expansion := by
  refine ⟨?_, ?_, ?_⟩ <;> decide

/-- C8 amended: when the classifier falls back to rules, the query is
first trimmed, then classified in order: a query starting
(case-insensitively) with one of the question words
如何/怎么/怎样/为什么/什么是/是什么/how/what/why/when/where (the claim's
list extended with 怎样 and 是什么) yields `hyde`; otherwise fewer than 10
characters or fewer than 3 whitespace-separated tokens yields `expansion`;
otherwise CamelCase, snake_case, a dotted call or a backtick yields
`direct`; otherwise `expansion`. -/
theorem getDefaultStrategy_rules (query : Str) :
    (getDefaultStrategy query).strategy =
      (if ∃ w ∈ questionWords, w <+: (jsTrim query).map Char.toLower then
        QueryStrategy.hyde
      else if (jsTrim query).length < 10 ∨ tokenCount (jsTrim query) < 3 then
        QueryStrategy.expansion
      else if hasCodeFeature (jsTrim query) = true then QueryStrategy.direct
      else QueryStrategy.expansion) := by
  classical
  rw [getDefaultStrategy]
  set t := jsTrim query with ht
  have hc1 : (questionWords.any (startsWithWordCI t) = true) ↔
      ∃ w ∈ questionWords, w <+: t.map Char.toLower := by
    rw [List.any_eq_true]
    constructor
    · rintro ⟨w, hw, hsw⟩
      exact ⟨w, hw, (startsWithWordCI_iff t w).mp hsw⟩
    · rintro ⟨w, hw, hpre⟩
      exact ⟨w, hw, (startsWithWordCI_iff t w).mpr hpre⟩
  have hsplit : (jsSplitWS t).length = max 1 (tokenCount t) :=
    jsSplitWS_length_eq t.length t le_rfl (jsTrim_head query) (jsTrim_getLast query)
  have hc2 : ((decide (t.length < 10) || decide ((jsSplitWS t).length < 3)) = true) ↔
      (t.length < 10 ∨ tokenCount t < 3) := by
    rw [Bool.or_eq_true, decide_eq_true_eq, decide_eq_true_eq, hsplit]
    constructor
    · rintro (h | h)
      · exact Or.inl h
      · exact Or.inr (by omega)
    · rintro (h | h)
      · exact Or.inl h
      · exact Or.inr (by omega)
  by_cases h1 : questionWords.any (startsWithWordCI t) = true
  · rw [if_pos h1, if_pos (hc1.mp h1)]
  · rw [if_neg h1, if_neg (fun hcon => h1 (hc1.mpr hcon))]
    by_cases h2 : (decide (t.length < 10) || decide ((jsSplitWS t).length < 3)) = true
    · rw [if_pos h2, if_pos (hc2.mp h2)]
    · rw [if_neg h2, if_neg (fun hcon => h2 (hc2.mpr hcon))]
      by_cases h3 : hasCodeFeature t = true
      · rw [if_pos h3, if_pos h3]
      · rw [if_neg h3, if_neg h3]
